import Mathlib

/-!
Verification of the Enron HR network-analysis pipeline
(`pipeline_broken_20260131_172014.py`) against its specification.

The Python source is shallowly embedded: strings become `List Char`,
timestamps become rationals (seconds since an epoch; the code divides by
3600 to obtain hours), the `networkx.DiGraph` becomes an explicit node
list plus a weighted-edge association list, `defaultdict` maps become
total functions with an explicit default, and the single ingestion pass
(`process_data_pipeline`, lines 122-149) becomes a fold of a step
function over the validated messages.
-/

namespace Enron

/-- User addresses and other Python strings are lists of characters. -/
abbrev Addr := List Char

/-! ### Python string primitives used by the pipeline -/

/-- ASCII whitespace recognised by Python's `str.strip` and the regex
class `\s` (space, tab, newline, carriage return, vertical tab, form feed). -/
def isSpace (c : Char) : Bool :=
  decide (c.toNat = 32 ∨ c.toNat = 9 ∨ c.toNat = 10 ∨ c.toNat = 13 ∨ c.toNat = 11 ∨ c.toNat = 12)

/-- ASCII lowercasing of one character, as Python's `str.lower` acts on
the ASCII range (the corpus is ASCII e-mail text). -/
def lowerChar (c : Char) : Char :=
  if 65 ≤ c.toNat ∧ c.toNat ≤ 90 then Char.ofNat (c.toNat + 32) else c

/-- Python `str.lower`. -/
def pyLower (s : List Char) : List Char := s.map lowerChar

/-- Python `str.strip`: drop leading and trailing whitespace. -/
def pyStrip (s : List Char) : List Char :=
  ((s.dropWhile isSpace).reverse.dropWhile isSpace).reverse

/-! ### `normalize_subject` (source lines 44-53) -/

/-- Match of the anchored alternation `^(re:|fw:|fwd:)` on an (already
lowercased) subject: returns the remainder after the marker, or `none`. -/
def markerRest (s : List Char) : Option (List Char) :=
  if s.take 3 = ['r', 'e', ':'] then some (s.drop 3)
  else if s.take 3 = ['f', 'w', ':'] then some (s.drop 3)
  else if s.take 4 = ['f', 'w', 'd', ':'] then some (s.drop 4)
  else none

/-- One application of `re.sub(r"^(re:|fw:|fwd:)\s*", "", s)`: strip a
leading reply/forward marker together with the whitespace that follows it. -/
def subRe (s : List Char) : List Char :=
  match markerRest s with
  | some rest => rest.dropWhile isSpace
  | none => s

/-- One iteration of the `while True` loop body in `normalize_subject`:
`new_s = re.sub(...).strip()`. -/
def normStep (s : List Char) : List Char := pyStrip (subRe s)

/-- The `while True` loop of `normalize_subject`, run with explicit fuel;
the loop stops at the first fixed point of `normStep`. -/
def normLoop : Nat → List Char → List Char
  | 0, s => s
  | fuel + 1, s =>
    let n := normStep s
    if n = s then s else normLoop fuel n

/-- `normalize_subject` (source lines 44-53): empty subjects map to the
empty string; otherwise lowercase, strip, and repeatedly remove leading
reply/forward markers until nothing changes.  `subject.length + 1` fuel
is enough because every productive loop iteration strictly shortens the
string. -/
def normalize_subject (subject : List Char) : List Char :=
  if subject = [] then []
  else normLoop (subject.length + 1) (pyStrip (pyLower subject))

/-! ### Interaction graph (a `networkx.DiGraph` with integer edge weights) -/

/-- Directed weighted graph: an explicit node list (no duplicates in all
graphs the pipeline builds) plus an association list from edge (source,
target) to its integer weight. -/
structure DiGraph where
  nodes : List Addr
  edges : List ((Addr × Addr) × Nat)
deriving DecidableEq

def emptyGraph : DiGraph := ⟨[], []⟩

/-- `G.has_edge(u, v)`. -/
def hasEdge (g : DiGraph) (u v : Addr) : Bool :=
  g.edges.any (fun e => e.1 = (u, v))

/-- Adding a node, as `nx.add_edge` does implicitly for fresh endpoints. -/
def addNode (ns : List Addr) (u : Addr) : List Addr :=
  if u ∈ ns then ns else ns ++ [u]

/-- Add 1 to the weight of the first entry for key `k` (the only entry,
since the pipeline keeps keys distinct); append a fresh unit entry if
the key is absent. -/
def bumpWeight : List ((Addr × Addr) × Nat) → Addr × Addr → List ((Addr × Addr) × Nat)
  | [], k => [(k, 1)]
  | (k', w) :: rest, k =>
    if k' = k then (k', w + 1) :: rest else (k', w) :: bumpWeight rest k

/-- Source lines 131-134: `G[s][r]["weight"] += 1` when the edge exists,
else `G.add_edge(s, r, weight=1)`. -/
def ingestEdge (g : DiGraph) (u v : Addr) : DiGraph :=
  if hasEdge g u v then { g with edges := bumpWeight g.edges (u, v) }
  else ⟨addNode (addNode g.nodes u) v, g.edges ++ [((u, v), 1)]⟩

/-- Sum of the weights stored under edge key `k` (the stored weight when
keys are unique; summation makes it total on raw edge lists). -/
def sumWKey (k : Addr × Addr) : List ((Addr × Addr) × Nat) → Nat
  | [] => 0
  | e :: rest => (if e.1 = k then e.2 else 0) + sumWKey k rest

/-- Sum of the weights of all entries whose target is `u`. -/
def sumWTo (u : Addr) : List ((Addr × Addr) × Nat) → Nat
  | [] => 0
  | e :: rest => (if e.1.2 = u then e.2 else 0) + sumWTo u rest

/-- Total weight carried by edge `u→v` (`G[u][v]["weight"]`). -/
def edgeWeight (g : DiGraph) (u v : Addr) : Nat :=
  sumWKey (u, v) g.edges

/-- Sum of the weights of all edges entering `u`. -/
def inWeight (g : DiGraph) (u : Addr) : Nat :=
  sumWTo u g.edges

/-- `G.successors(u)`: targets of the outgoing edges of `u`. -/
def successors (g : DiGraph) (u : Addr) : List Addr :=
  g.edges.filterMap (fun e => if e.1.1 = u then some e.1.2 else none)

/-- `G.remove_nodes_from(members)` applied to a copy: drop the listed
nodes and every edge incident to one of them. -/
def removeNodes (g : DiGraph) (members : List Addr) : DiGraph :=
  ⟨g.nodes.filter (fun n => decide (n ∉ members)),
   g.edges.filter (fun e => decide (e.1.1 ∉ members ∧ e.1.2 ∉ members))⟩

/-! ### Per-user statistics and the ingestion state -/

/-- One `user_stats` entry (source lines 61-67). -/
structure UserStat where
  timestamps : List ℚ
  response_times : List ℚ
  in_degree_count : Nat
  in_strength : Nat
  out_strength : Nat
deriving DecidableEq

/-- The `defaultdict` default for `user_stats`. -/
def defaultStat : UserStat := ⟨[], [], 0, 0, 0⟩

/-- Point update of a total map, used for `user_stats` mutation. -/
def updStat (f : Addr → UserStat) (a : Addr) (g : UserStat → UserStat) : Addr → UserStat :=
  fun x => if x = a then g (f x) else f x

/-- Key of `pending_replies`: (queue sender, queue receiver, thread key). -/
abbrev PendKey := Addr × Addr × List Char

/-- Point update of the pending-reply queues. -/
def updPend (p : PendKey → List ℚ) (k : PendKey) (v : List ℚ) : PendKey → List ℚ :=
  fun x => if x = k then v else p x

/-- One message after validation (spec §3 `ValidatedMessage`); the
timestamp is in seconds. -/
structure ValidatedMessage where
  sender : Addr
  receivers : List Addr
  timestamp : ℚ
  subject : List Char
  body : List Char
deriving DecidableEq

/-- The mutable state of the single ingestion pass: the graph, the
`user_stats` map, the `pending_replies` queues, `temporal_data`, and the
`rows_kept` counter. -/
structure PipelineState where
  G : DiGraph
  stats : Addr → UserStat
  pending : PendKey → List ℚ
  temporal : List (Addr × ℚ)
  rows_kept : Nat

def initState : PipelineState :=
  ⟨emptyGraph, fun _ => defaultStat, fun _ => [], [], 0⟩

/-- Configuration constants (source lines 22-32). -/
def RT_MIN_HOURS : ℚ := 1 / 10
def RT_MAX_HOURS : ℚ := 168
def SLOW_THRESHOLD_H : ℚ := 24
def EI_OPEN_THRESHOLD : ℚ := -1 / 5
def USE_SUBJECT_THREADING_FOR_RT : Bool := true

/-- The body of the `for receiver in receivers` loop (source lines
127-147): skip self-sends; bump the edge and the volume counters; try to
match a pending reply on the reversed key and record the elapsed hours
when strictly inside the bounds; finally push this message's timestamp
onto the forward queue. -/
def stepReceiver (sender : Addr) (ts : ℚ) (tk : List Char)
    (st : PipelineState) (receiver : Addr) : PipelineState :=
  if receiver = sender then st
  else
    let G := ingestEdge st.G sender receiver
    let stats := updStat st.stats receiver
      (fun u => { u with in_degree_count := u.in_degree_count + 1,
                         in_strength := u.in_strength + 1 })
    let stats := updStat stats sender
      (fun u => { u with out_strength := u.out_strength + 1 })
    let keyR : PendKey := (receiver, sender, tk)
    match st.pending keyR with
    | [] =>
      let fwd : PendKey := (sender, receiver, tk)
      { st with G := G, stats := stats,
                pending := updPend st.pending fwd (st.pending fwd ++ [ts]) }
    | t0 :: rest =>
      let hours := (ts - t0) / 3600
      let stats :=
        if RT_MIN_HOURS < hours ∧ hours < RT_MAX_HOURS then
          updStat stats sender (fun u => { u with response_times := u.response_times ++ [hours] })
        else stats
      let pend1 := updPend st.pending keyR rest
      let fwd : PendKey := (sender, receiver, tk)
      { st with G := G, stats := stats,
                pending := updPend pend1 fwd (pend1 fwd ++ [ts]) }

/-- Processing of one validated message (source lines 122-149): record
`temporal_data` and the sender's send timestamp, compute the thread key,
run the receiver loop, and count the row as kept. -/
def processMessage (st : PipelineState) (m : ValidatedMessage) : PipelineState :=
  let st1 : PipelineState :=
    { st with temporal := st.temporal ++ [(m.sender, m.timestamp)],
              stats := updStat st.stats m.sender
                (fun u => { u with timestamps := u.timestamps ++ [m.timestamp] }) }
  let tk := if USE_SUBJECT_THREADING_FOR_RT then normalize_subject m.subject else []
  let st2 := m.receivers.foldl (stepReceiver m.sender m.timestamp tk) st1
  { st2 with rows_kept := st2.rows_kept + 1 }

/-- Ingestion of a whole stream of validated messages from the empty state. -/
def runIngest (msgs : List ValidatedMessage) : PipelineState :=
  msgs.foldl processMessage initState

/-! ### Weakly connected components and `compute_fragmentation_impact` -/

/-- Merge the components containing `u` and `v` (weak connectivity:
edge direction is ignored).  Entries absent from every component leave
the partition unchanged. -/
def mergeComps (comps : List (List Addr)) (u v : Addr) : List (List Addr) :=
  match comps.find? (fun c => c.contains u), comps.find? (fun c => c.contains v) with
  | some cu, some cv =>
    if cu = cv then comps
    else comps.filter (fun c => decide (c ≠ cu ∧ c ≠ cv)) ++ [cu ++ cv]
  | _, _ => comps

/-- `nx.weakly_connected_components`: start from singleton components and
merge across every edge. -/
def components (g : DiGraph) : List (List Addr) :=
  g.edges.foldl (fun comps e => mergeComps comps e.1.1 e.1.2) (g.nodes.map (fun n => [n]))

/-- `len(max(nx.weakly_connected_components(G), key=len))`, with 0 for a
graph with no components. -/
def maxWccSize (g : DiGraph) : Nat :=
  (components g).foldr (fun c acc => max c.length acc) 0

/-- Python `round(x, 2)` on the exact rational values this pipeline
produces (round to the nearest hundredth; no claim depends on the exact
half-way tie rule). -/
def round2 (q : ℚ) : ℚ := ((round (q * 100) : ℤ) : ℚ) / 100

/-- Python `round(x, 1)`, analogously. -/
def round1 (q : ℚ) : ℚ := ((round (q * 10) : ℤ) : ℚ) / 10

/-- The `new_lcc` value of `compute_fragmentation_impact` (source line
175): the largest weakly-connected-component size of the graph after
removing `members`, or 0 when no node remains. -/
def newLccOf (g : DiGraph) (members : List Addr) : Nat :=
  let gTmp := removeNodes g members
  if 0 < gTmp.nodes.length then maxWccSize gTmp else 0

/-- `compute_fragmentation_impact` (source lines 168-176). -/
def compute_fragmentation_impact (g : DiGraph) (members : List Addr) : ℚ :=
  if g.nodes.length = 0 then 0
  else
    let original_lcc := maxWccSize g
    let new_lcc := newLccOf g members
    if 0 < original_lcc then
      round2 (((original_lcc : ℚ) - (new_lcc : ℚ)) / (original_lcc : ℚ) * 100)
    else 0

/-! ### Typology (`assign_typology`, source lines 179-193) -/

/-- Metric cells are `Option ℚ`: `none` models a `NaN` entry, the `pd.isna`
guard in the source. -/
def is_slow (avg_rt : Option ℚ) : Bool :=
  match avg_rt with
  | none => false
  | some v => decide (SLOW_THRESHOLD_H < v)

def is_open (ei : Option ℚ) : Bool :=
  match ei with
  | none => false
  | some v => decide (EI_OPEN_THRESHOLD < v)

/-- `assign_typology` returns the label string of the source. -/
def assign_typology (avg_rt ei : Option ℚ) : List Char :=
  if is_slow avg_rt && !is_open ei then ['B', 'l', 'a', 'c', 'k', ' ', 'H', 'o', 'l', 'e']
  else if is_slow avg_rt && is_open ei then
    ['O', 'v', 'e', 'r', 'l', 'o', 'a', 'd', 'e', 'd', ' ', 'H', 'u', 'b']
  else if !is_slow avg_rt && !is_open ei then
    ['B', 'u', 'r', 'e', 'a', 'u', 'c', 'r', 'a', 't', 'i', 'c']
  else ['A', 'g', 'i', 'l', 'e', ' ', 'C', 'o', 'n', 'n', 'e', 'c', 't', 'o', 'r']

/-- Modelled from the spec: the classification table of §4.4 as a pure
function of the two booleans, to be compared with `assign_typology`. -/
def typologyTable (slow opn : Bool) : List Char :=
  match slow, opn with
  | true, false => ['B', 'l', 'a', 'c', 'k', ' ', 'H', 'o', 'l', 'e']
  | true, true => ['O', 'v', 'e', 'r', 'l', 'o', 'a', 'd', 'e', 'd', ' ', 'H', 'u', 'b']
  | false, false => ['B', 'u', 'r', 'e', 'a', 'u', 'c', 'r', 'a', 't', 'i', 'c']
  | false, true => ['A', 'g', 'i', 'l', 'e', ' ', 'C', 'o', 'n', 'n', 'e', 'c', 't', 'o', 'r']

/-! ### The community/typology table
(`detect_communities_and_macro_table`, source lines 196-265; the
community partition itself comes from an external collaborator, so the
engine is modelled as a function of an arbitrary supplied partition) -/

/-- Mean response time of one user, `np.mean` of the recorded samples or
`NaN` (`none`) when there are none (source line 204). -/
def userAvgRt (stats : Addr → UserStat) (u : Addr) : Option ℚ :=
  let rts := (stats u).response_times
  if rts.length = 0 then none else some (rts.sum / (rts.length : ℚ))

/-- `max(members, key=lambda x: user_stats[x]["in_degree_count"])`:
Python `max` keeps the first element attaining the maximum. -/
def keyUser (stats : Addr → UserStat) : List Addr → Addr
  | [] => []
  | h :: t =>
    t.foldl (fun best x =>
      if (stats best).in_degree_count < (stats x).in_degree_count then x else best) h

/-- One row of the macro table (source lines 247-255 plus the derived
columns of lines 259-261).  The `Dept_ID` string combines `seq` and the
local part of `anchor`. -/
structure CommunityRow where
  seq : Nat
  anchor : Addr
  size : Nat
  avg_response : Option ℚ
  bottleneck_density : ℚ
  workload_skew : Option ℚ
  ei_count : ℚ
  ei_weight : ℚ
  frag_impact : ℚ
  ei_index : ℚ
  typology : List Char
deriving DecidableEq

/-- Internal/external edge accumulation for a community (source lines
219-233): returns (internal count, external count, internal weight,
external weight). -/
def eiAccum (g : DiGraph) (members : List Addr) : Nat × Nat × Nat × Nat :=
  members.foldl (fun acc m =>
    (successors g m).foldl (fun acc n =>
      let w := edgeWeight g m n
      if n ∈ members then (acc.1 + 1, acc.2.1, acc.2.2.1 + w, acc.2.2.2)
      else (acc.1, acc.2.1 + 1, acc.2.2.1, acc.2.2.2 + w)) acc)
    (0, 0, 0, 0)

/-- Insertion into a descending list, for `sorted(..., reverse=True)`. -/
def insertDesc (x : Nat) : List Nat → List Nat
  | [] => [x]
  | y :: ys => if y < x then x :: y :: ys else y :: insertDesc x ys

def sortDesc (l : List Nat) : List Nat := l.foldr insertDesc []

/-- One community's row of the macro table, for a retained community
(source lines 212-256 plus the derived columns of lines 259-261);
`int(len(members) * 0.1)` is natural-number truncation. -/
def mkRow (g : DiGraph) (stats : Addr → UserStat) (seq : Nat) (members : List Addr) :
    CommunityRow :=
  let acc := eiAccum g members
  let internal_c := acc.1
  let external_c := acc.2.1
  let internal_w := acc.2.2.1
  let external_w := acc.2.2.2
  let total_c := internal_c + external_c
  let total_w := internal_w + external_w
  let ei_c : ℚ := if 0 < total_c then ((external_c : ℚ) - (internal_c : ℚ)) / (total_c : ℚ) else 0
  let ei_w : ℚ := if 0 < total_w then ((external_w : ℚ) - (internal_w : ℚ)) / (total_w : ℚ) else 0
  let rts := members.filterMap (userAvgRt stats)
  let avg_rt : Option ℚ :=
    if rts.length = 0 then none else some (round2 (rts.sum / (rts.length : ℚ)))
  let bn_cnt := members.countP (fun u =>
    match userAvgRt stats u with
    | none => false
    | some v => decide (SLOW_THRESHOLD_H < v))
  let loads := sortDesc (members.map (fun u => (stats u).in_degree_count))
  let total_load := loads.sum
  let top_k := max 1 (members.length / 10)
  let skew : Option ℚ :=
    if 0 < total_load then
      some (round1 (((loads.take top_k).sum : ℚ) / (total_load : ℚ) * 100))
    else none
  let ei_index := round2 ei_w
  { seq := seq
    anchor := keyUser stats members
    size := members.length
    avg_response := avg_rt
    bottleneck_density := round1 ((bn_cnt : ℚ) / (members.length : ℚ) * 100)
    workload_skew := skew
    ei_count := round2 ei_c
    ei_weight := round2 ei_w
    frag_impact := compute_fragmentation_impact g members
    ei_index := ei_index
    typology := assign_typology avg_rt (some ei_index) }

/-- The community metrics engine, as a function of the externally
supplied partition (`enumerate(comms, start=1)` with the `< 10` filter,
source lines 207-210). -/
def detect_communities_and_macro_table (g : DiGraph) (stats : Addr → UserStat) (partition : List (List Addr)) :
    List CommunityRow :=
  partition.enum.filterMap (fun p =>
    if p.2.length < 10 then none else some (mkRow g stats (p.1 + 1) p.2))

/-! ### The individual table (`build_individual_table`, source lines 268-289) -/

/-- One row of the individual table; `dept = none` renders as the
`Unknown` department. -/
structure IndivRow where
  user : Addr
  dept : Option Nat
  received_count : Nat
  avg_response : Option ℚ
  external_out_pct : ℚ
deriving DecidableEq

/-- `build_individual_table`: one row per node of the graph, with the
community assignment looked up in `user_dept_map` (modelled by its
sequence number). -/
def build_individual_table (g : DiGraph) (stats : Addr → UserStat)
    (deptMap : Addr → Option Nat) : List IndivRow :=
  g.nodes.map (fun u =>
    let avg : Option ℚ :=
      match userAvgRt stats u with
      | none => none
      | some v => some (round2 v)
    let tot_w := (successors g u).foldl (fun a n => a + edgeWeight g u n) 0
    let ext_w := (successors g u).foldl
      (fun a n => a + if deptMap n ≠ deptMap u then edgeWeight g u n else 0) 0
    { user := u
      dept := deptMap u
      received_count := (stats u).in_degree_count
      avg_response := avg
      external_out_pct := if 0 < tot_w then round1 ((ext_w : ℚ) / (tot_w : ℚ) * 100) else 0 })

/-! ### The record filter (validation inside `process_data_pipeline`,
source lines 89-120) -/

/-- Python's substring test `pat in s` (contiguous occurrence). -/
def containsSub (s pat : List Char) : Bool :=
  match s with
  | [] => pat.isEmpty
  | _ :: t => pat.isPrefixOf s || containsSub t pat

/-- Boilerplate subject markers (`SKIP_SUBJECTS`, source lines 16-19). -/
def SKIP_SUBJECTS : List (List Char) :=
  ["accepted:".data, "declined:".data, "tentative:".data, "automatic reply:".data,
   "out of office".data, "demand for payment".data, "newsletter".data,
   "daily report".data, "status change".data]

def MIN_BODY_LENGTH : Nat := 30

def VALID_DOMAINS : List (List Char) := ["enron.com".data]

/-- The text after the last occurrence of `c` (Python `split(c)[-1]`). -/
def lastAfter (c : Char) (l : List Char) : List Char :=
  (l.reverse.takeWhile (fun x => x != c)).reverse

/-- `is_valid_user` (source lines 35-41). -/
def is_valid_user (email : List Char) : Bool :=
  if email = [] then false
  else
    let e := pyStrip (pyLower email)
    if !(e.contains '@') then false
    else VALID_DOMAINS.contains (lastAfter '@' e)

/-- One pre-parsed raw record.  Field extraction from the raw message
text is the external collaborator's job (spec §6); here `fromField`,
`toPieces` and `dateField` are `none` when the corresponding regex found
no match, `toPieces` holds the comma-split `To:` text with newlines and
tabs already removed, and the inner option of `dateField` is the outcome
of the external permissive date parser (seconds, `none` if unparseable). -/
structure RawRecord where
  subject : List Char
  body : List Char
  fromField : Option (List Char)
  toPieces : Option (List (List Char))
  dateField : Option (Option ℚ)
deriving DecidableEq

/-- The in-order validation of one record (source lines 89-120):
boilerplate subject, body length, header presence, sender domain,
receiver filtering, date parse; any failure yields `none`. -/
def validate (r : RawRecord) : Option ValidatedMessage :=
  if SKIP_SUBJECTS.any (fun s => containsSub (pyLower r.subject) s) then none
  else if (pyStrip r.body).length < MIN_BODY_LENGTH then none
  else
    match r.fromField, r.toPieces, r.dateField with
    | some fr, some pieces, some dres =>
      let sender := pyLower (pyStrip fr)
      if !is_valid_user sender then none
      else
        let receivers := (pieces.filter (fun p => p.contains '@' && is_valid_user p)).map
          (fun p => pyLower (pyStrip p))
        if receivers = [] then none
        else
          match dres with
          | none => none
          | some ts => some ⟨sender, receivers, ts, r.subject, r.body⟩
    | _, _, _ => none

/-- The record loop of `process_data_pipeline`: validate each record,
ingest the accepted ones, silently skip the rest. -/
def pipelineFold (st : PipelineState) (records : List RawRecord) : PipelineState :=
  records.foldl (fun st r =>
    match validate r with
    | none => st
    | some m => processMessage st m) st

/-! ## Lemmas about the string primitives -/

lemma toNat_ofNat_of_lt {n : Nat} (h : n < 55296) : (Char.ofNat n).toNat = n := by
  have hv : n.isValidChar := Or.inl h
  rw [Char.ofNat, dif_pos hv]
  rfl

lemma lowerChar_eq_of_upper {c : Char} (h : 65 ≤ c.toNat ∧ c.toNat ≤ 90) :
    lowerChar c = Char.ofNat (c.toNat + 32) := by
  unfold lowerChar
  exact if_pos h

lemma lowerChar_eq_of_not {c : Char} (h : ¬(65 ≤ c.toNat ∧ c.toNat ≤ 90)) :
    lowerChar c = c := by
  unfold lowerChar
  exact if_neg h

lemma lowerChar_toNat_of_upper {c : Char} (h : 65 ≤ c.toNat ∧ c.toNat ≤ 90) :
    (lowerChar c).toNat = c.toNat + 32 := by
  rw [lowerChar_eq_of_upper h]
  exact toNat_ofNat_of_lt (by omega)

lemma isSpace_lowerChar (c : Char) : isSpace (lowerChar c) = isSpace c := by
  by_cases h : 65 ≤ c.toNat ∧ c.toNat ≤ 90
  · have ht := lowerChar_toNat_of_upper h
    unfold isSpace
    rw [ht]
    exact decide_eq_decide.mpr (by omega)
  · rw [lowerChar_eq_of_not h]

lemma lowerChar_idem (c : Char) : lowerChar (lowerChar c) = lowerChar c := by
  by_cases h : 65 ≤ c.toNat ∧ c.toNat ≤ 90
  · have ht := lowerChar_toNat_of_upper h
    exact lowerChar_eq_of_not (by omega)
  · rw [lowerChar_eq_of_not h]
    exact lowerChar_eq_of_not h

lemma pyLower_idem (s : List Char) : pyLower (pyLower s) = pyLower s := by
  unfold pyLower
  rw [List.map_map]
  exact List.map_congr_left (fun c _ => lowerChar_idem c)

lemma mem_pyLower_fixed {s : List Char} (hs : pyLower s = s) {c : Char} (hc : c ∈ s) :
    lowerChar c = c := by
  induction s with
  | nil => cases hc
  | cons a t ih =>
    unfold pyLower at hs
    simp only [List.map_cons, List.cons.injEq] at hs
    rcases List.mem_cons.mp hc with rfl | hmem
    · exact hs.1
    · exact ih hs.2 hmem

lemma pyLower_eq_self_of_mem {s : List Char} (h : ∀ c ∈ s, lowerChar c = c) :
    pyLower s = s := by
  induction s with
  | nil => rfl
  | cons a t ih =>
    unfold pyLower
    simp only [List.map_cons]
    rw [h a (List.mem_cons_self a t)]
    exact congrArg _ (ih (fun c hc => h c (List.mem_cons_of_mem a hc)))

lemma pyStrip_eq (s : List Char) :
    pyStrip s = List.rdropWhile isSpace (List.dropWhile isSpace s) := rfl

lemma rdropWhile_front (p : Char → Bool) (l : List Char) : List.rdropWhile p l <+: l := by
  exact List.rdropWhile_prefix p l

lemma dropWhile_fix_of_front {p : Char → Bool} {y z : List Char}
    (hfix : List.dropWhile p y = y) (hpre : z <+: y) : List.dropWhile p z = z := by
  cases z with
  | nil => rfl
  | cons a zt =>
    obtain ⟨t, ht⟩ := hpre
    have hy : y = a :: (zt ++ t) := by rw [← ht]; rfl
    rw [hy, List.dropWhile_cons] at hfix
    by_cases hpa : p a
    · rw [if_pos hpa] at hfix
      have h1 : (List.dropWhile p (zt ++ t)).length ≤ (zt ++ t).length :=
        (List.dropWhile_suffix p).length_le
      have h2 := congrArg List.length hfix
      simp only [List.length_cons] at h2
      omega
    · exact List.dropWhile_cons_of_neg hpa

lemma pyStrip_idem (s : List Char) : pyStrip (pyStrip s) = pyStrip s := by
  rw [pyStrip_eq, pyStrip_eq]
  have hyfix : List.dropWhile isSpace (List.dropWhile isSpace s) = List.dropWhile isSpace s :=
    List.dropWhile_idempotent isSpace s
  have hzfix : List.dropWhile isSpace (List.rdropWhile isSpace (List.dropWhile isSpace s))
      = List.rdropWhile isSpace (List.dropWhile isSpace s) :=
    dropWhile_fix_of_front hyfix (rdropWhile_front isSpace _)
  rw [hzfix]
  exact List.rdropWhile_idempotent isSpace _

lemma pyStrip_length_le (s : List Char) : (pyStrip s).length ≤ s.length := by
  rw [pyStrip_eq]
  exact le_trans (rdropWhile_front isSpace _).length_le
    (List.dropWhile_suffix isSpace).length_le

lemma pyStrip_ne_lt {s : List Char} (h : pyStrip s ≠ s) : (pyStrip s).length < s.length := by
  rcases (pyStrip_length_le s).lt_or_eq with hlt | heq
  · exact hlt
  · exfalso
    apply h
    rw [pyStrip_eq] at heq ⊢
    have h1 : (List.rdropWhile isSpace (List.dropWhile isSpace s)).length
        ≤ (List.dropWhile isSpace s).length := (rdropWhile_front isSpace _).length_le
    have h2 : (List.dropWhile isSpace s).length ≤ s.length :=
      (List.dropWhile_suffix isSpace).length_le
    have e2 : List.dropWhile isSpace s = s :=
      (List.dropWhile_suffix isSpace).eq_of_length (by omega)
    have e1 : List.rdropWhile isSpace (List.dropWhile isSpace s) = List.dropWhile isSpace s :=
      (rdropWhile_front isSpace _).eq_of_length (by omega)
    rw [e1, e2]

lemma pyLower_pyStrip (s : List Char) : pyLower (pyStrip s) = pyStrip (pyLower s) := by
  have hcomp : (isSpace ∘ lowerChar) = isSpace := funext isSpace_lowerChar
  have hdw : ∀ l : List Char, List.dropWhile isSpace (List.map lowerChar l)
      = List.map lowerChar (List.dropWhile isSpace l) := fun l => by
    rw [List.dropWhile_map, hcomp]
  have hrev : ∀ l : List Char, (List.map lowerChar l).reverse = List.map lowerChar l.reverse :=
    fun l => by rw [List.map_reverse]
  simp only [pyLower, pyStrip, hdw, hrev]

/-! ## Lemmas about `normalize_subject` -/

lemma markerRest_suffix {s rest : List Char} (h : markerRest s = some rest) : rest <:+ s := by
  unfold markerRest at h
  split_ifs at h with h1 h2 h3 <;> injection h with h <;> rw [← h] <;>
    exact List.drop_suffix _ s

lemma markerRest_length {s rest : List Char} (h : markerRest s = some rest) :
    rest.length < s.length := by
  unfold markerRest at h
  split_ifs at h with h1 h2 h3 <;> injection h with h
  · have := congrArg List.length h1
    simp only [List.length_take, List.length_cons, List.length_nil] at this
    rw [← h, List.length_drop]
    omega
  · have := congrArg List.length h2
    simp only [List.length_take, List.length_cons, List.length_nil] at this
    rw [← h, List.length_drop]
    omega
  · have := congrArg List.length h3
    simp only [List.length_take, List.length_cons, List.length_nil] at this
    rw [← h, List.length_drop]
    omega

lemma subRe_suffix (s : List Char) : subRe s <:+ s := by
  unfold subRe
  cases hm : markerRest s with
  | none => exact List.suffix_refl s
  | some rest => exact (List.dropWhile_suffix isSpace).trans (markerRest_suffix hm)

lemma subRe_of_none {s : List Char} (hm : markerRest s = none) : subRe s = s := by
  unfold subRe
  rw [hm]

lemma subRe_of_some {s rest : List Char} (hm : markerRest s = some rest) :
    subRe s = rest.dropWhile isSpace := by
  unfold subRe
  rw [hm]

lemma normStep_lt_of_ne {s : List Char} (h : normStep s ≠ s) :
    (normStep s).length < s.length := by
  cases hm : markerRest s with
  | none =>
    have hsub : normStep s = pyStrip s := by unfold normStep; rw [subRe_of_none hm]
    rw [hsub] at h ⊢
    exact pyStrip_ne_lt h
  | some rest =>
    have hsub : normStep s = pyStrip (rest.dropWhile isSpace) := by
      unfold normStep; rw [subRe_of_some hm]
    rw [hsub]
    calc (pyStrip (rest.dropWhile isSpace)).length
        ≤ (rest.dropWhile isSpace).length := pyStrip_length_le _
      _ ≤ rest.length := (List.dropWhile_suffix isSpace).length_le
      _ < s.length := markerRest_length hm

lemma normStep_fix_of_lower {s : List Char} (hlow : pyLower s = s) :
    pyStrip (normStep s) = normStep s ∧ pyLower (normStep s) = normStep s := by
  constructor
  · exact pyStrip_idem (subRe s)
  · have hmem : ∀ c ∈ subRe s, lowerChar c = c := fun c hc =>
      mem_pyLower_fixed hlow ((subRe_suffix s).subset hc)
    have hsub : pyLower (subRe s) = subRe s := pyLower_eq_self_of_mem hmem
    unfold normStep
    rw [pyLower_pyStrip, hsub]

lemma normLoop_fix : ∀ (fuel : Nat) (s : List Char), s.length < fuel →
    normStep (normLoop fuel s) = normLoop fuel s := by
  intro fuel
  induction fuel with
  | zero => intro s h; omega
  | succ f ih =>
    intro s h
    unfold normLoop
    by_cases hstep : normStep s = s
    · rw [if_pos hstep]
      exact hstep
    · rw [if_neg hstep]
      exact ih (normStep s) (by have := normStep_lt_of_ne hstep; omega)

lemma normLoop_inv : ∀ (fuel : Nat) (s : List Char), pyStrip s = s → pyLower s = s →
    pyStrip (normLoop fuel s) = normLoop fuel s ∧ pyLower (normLoop fuel s) = normLoop fuel s := by
  intro fuel
  induction fuel with
  | zero => intro s h1 h2; exact ⟨h1, h2⟩
  | succ f ih =>
    intro s h1 h2
    unfold normLoop
    by_cases hstep : normStep s = s
    · rw [if_pos hstep]
      exact ⟨h1, h2⟩
    · rw [if_neg hstep]
      obtain ⟨p1, p2⟩ := normStep_fix_of_lower h2
      exact ih (normStep s) p1 p2

lemma normLoop_of_fix {fuel : Nat} {s : List Char} (h : normStep s = s) :
    normLoop (fuel + 1) s = s := by
  unfold normLoop
  rw [if_pos h]

/-- Claim C6: subject normalization is idempotent — for every string `s`,
`normalize(normalize(s)) = normalize(s)` — and it strips arbitrarily many
repeated leading reply/forward markers, so normalizing
`"Re: Re: Fwd: Hi"` yields `"hi"`. -/
theorem C6_normalize_subject_idempotent :
    (∀ s : List Char, normalize_subject (normalize_subject s) = normalize_subject s) ∧
    normalize_subject
        ['R', 'e', ':', ' ', 'R', 'e', ':', ' ', 'F', 'w', 'd', ':', ' ', 'H', 'i']
      = ['h', 'i'] := by
  constructor
  · intro s
    by_cases hs : s = []
    · subst hs
      rfl
    · have hfl : (pyStrip (pyLower s)).length < s.length + 1 := by
        have h1 := pyStrip_length_le (pyLower s)
        have h2 : (pyLower s).length = s.length := by simp [pyLower]
        omega
      have hinit1 : pyStrip (pyStrip (pyLower s)) = pyStrip (pyLower s) := pyStrip_idem _
      have hinit2 : pyLower (pyStrip (pyLower s)) = pyStrip (pyLower s) := by
        rw [pyLower_pyStrip, pyLower_idem]
      set r := normLoop (s.length + 1) (pyStrip (pyLower s)) with hr
      have hfix : normStep r = r := normLoop_fix _ _ hfl
      obtain ⟨hrs, hrl⟩ := normLoop_inv (s.length + 1) _ hinit1 hinit2
      have hns : normalize_subject s = r := by
        unfold normalize_subject
        rw [if_neg hs]
      rw [hns]
      by_cases hrnil : r = []
      · rw [hrnil]
        rfl
      · unfold normalize_subject
        rw [if_neg hrnil, hrl, hrs]
        exact normLoop_of_fix hfix
  · decide

/-! ## Lemmas about the community table -/

lemma assign_typology_eq_table (avg ei : Option ℚ) :
    assign_typology avg ei = typologyTable (is_slow avg) (is_open ei) := by
  cases h1 : is_slow avg <;> cases h2 : is_open ei <;>
    simp [assign_typology, typologyTable, h1, h2]

lemma mkRow_typology (g : DiGraph) (stats : Addr → UserStat) (i : Nat) (members : List Addr) :
    (mkRow g stats i members).typology =
      assign_typology (mkRow g stats i members).avg_response
        (some (mkRow g stats i members).ei_index) := rfl

lemma mkRow_size (g : DiGraph) (stats : Addr → UserStat) (i : Nat) (members : List Addr) :
    (mkRow g stats i members).size = members.length := rfl

lemma mem_macro_table {g : DiGraph} {stats : Addr → UserStat} {partition : List (List Addr)}
    {row : CommunityRow} (h : row ∈ detect_communities_and_macro_table g stats partition) :
    ∃ i members, 10 ≤ members.length ∧ row = mkRow g stats i members := by
  unfold detect_communities_and_macro_table at h
  rw [List.mem_filterMap] at h
  obtain ⟨p, _, heq⟩ := h
  by_cases hlen : p.2.length < 10
  · rw [if_pos hlen] at heq
    cases heq
  · rw [if_neg hlen] at heq
    exact ⟨p.1 + 1, p.2, by omega, (Option.some.injEq _ _ ▸ heq).symm⟩

/-- Claim C7: the typology label of every retained community is a pure
function of the booleans `is_slow` and `is_open`, following exactly the
table (true,false) → Black Hole, (true,true) → Overloaded Hub,
(false,false) → Bureaucratic, (false,true) → Agile Connector; a missing
average response time or E-I index makes the predicate false. -/
theorem C7_typology_pure_function :
    (∀ avg ei : Option ℚ, assign_typology avg ei = typologyTable (is_slow avg) (is_open ei))
    ∧ is_slow none = false
    ∧ is_open none = false
    ∧ ∀ (g : DiGraph) (stats : Addr → UserStat) (partition : List (List Addr))
        (row : CommunityRow), row ∈ detect_communities_and_macro_table g stats partition →
        row.typology = typologyTable (is_slow row.avg_response) (is_open (some row.ei_index)) := by
  refine ⟨assign_typology_eq_table, rfl, rfl, ?_⟩
  intro g stats partition row hmem
  obtain ⟨i, members, _, rfl⟩ := mem_macro_table hmem
  rw [mkRow_typology]
  exact assign_typology_eq_table _ _

/-- Ten single-letter addresses used as a concrete retained community. -/
def wMembers : List Addr :=
  [['a'], ['b'], ['c'], ['d'], ['e'], ['f'], ['g'], ['h'], ['i'], ['j']]

/-- Witness for C7 at a concrete partition with one 10-member community. -/
theorem C7_typology_pure_function_witness :
    (mkRow emptyGraph (fun _ => defaultStat) 1 wMembers).typology =
      typologyTable (is_slow (mkRow emptyGraph (fun _ => defaultStat) 1 wMembers).avg_response)
        (is_open (some (mkRow emptyGraph (fun _ => defaultStat) 1 wMembers).ei_index)) :=
  C7_typology_pure_function.2.2.2 emptyGraph (fun _ => defaultStat) [wMembers]
    (mkRow emptyGraph (fun _ => defaultStat) 1 wMembers) (by
      have h : detect_communities_and_macro_table emptyGraph (fun _ => defaultStat) [wMembers]
          = [mkRow emptyGraph (fun _ => defaultStat) 1 wMembers] := by
        unfold detect_communities_and_macro_table
        rfl
      rw [h]
      exact List.mem_singleton.mpr rfl)

/-- Claim C8: every candidate community with fewer than 10 members is
discarded, so no community of size below 10 appears in the output table. -/
theorem C8_no_small_communities :
    ∀ (g : DiGraph) (stats : Addr → UserStat) (partition : List (List Addr))
      (row : CommunityRow), row ∈ detect_communities_and_macro_table g stats partition →
      10 ≤ row.size := by
  intro g stats partition row hmem
  obtain ⟨i, members, hlen, rfl⟩ := mem_macro_table hmem
  rw [mkRow_size]
  exact hlen

/-- Witness for C8 at a concrete partition holding a 10-member and a
1-member community. -/
theorem C8_no_small_communities_witness :
    10 ≤ (mkRow emptyGraph (fun _ => defaultStat) 1 wMembers).size :=
  C8_no_small_communities emptyGraph (fun _ => defaultStat) [wMembers, [['z']]]
    (mkRow emptyGraph (fun _ => defaultStat) 1 wMembers) (by
      have h : detect_communities_and_macro_table emptyGraph (fun _ => defaultStat)
          [wMembers, [['z']]] = [mkRow emptyGraph (fun _ => defaultStat) 1 wMembers] := by
        unfold detect_communities_and_macro_table
        rfl
      rw [h]
      exact List.mem_singleton.mpr rfl)

/-! ## Lemmas about edge weights and the volume counters -/

lemma sumWKey_bumpWeight (k k' : Addr × Addr) (es : List ((Addr × Addr) × Nat)) :
    sumWKey k (bumpWeight es k') = sumWKey k es + (if k' = k then 1 else 0) := by
  induction es with
  | nil =>
    simp only [bumpWeight, sumWKey]
    split_ifs <;> omega
  | cons e rest ih =>
    obtain ⟨ke, we⟩ := e
    simp only [bumpWeight]
    by_cases h : ke = k'
    · subst h
      rw [if_pos rfl]
      simp only [sumWKey]
      split_ifs <;> omega
    · rw [if_neg h]
      simp only [sumWKey, ih]
      split_ifs <;> omega

lemma sumWKey_append_one (k k' : Addr × Addr) (es : List ((Addr × Addr) × Nat)) :
    sumWKey k (es ++ [(k', 1)]) = sumWKey k es + (if k' = k then 1 else 0) := by
  induction es with
  | nil => simp [sumWKey]
  | cons e rest ih =>
    simp only [List.cons_append, List.append_eq, sumWKey]
    rw [ih]
    omega

lemma edgeWeight_ingestEdge (g : DiGraph) (s r a b : Addr) :
    edgeWeight (ingestEdge g s r) a b
      = edgeWeight g a b + (if (s, r) = (a, b) then 1 else 0) := by
  unfold ingestEdge edgeWeight
  by_cases h : hasEdge g s r
  · rw [if_pos h]
    exact sumWKey_bumpWeight (a, b) (s, r) g.edges
  · rw [if_neg h]
    exact sumWKey_append_one (a, b) (s, r) g.edges

lemma sumWTo_bumpWeight (u : Addr) (k' : Addr × Addr) (es : List ((Addr × Addr) × Nat)) :
    sumWTo u (bumpWeight es k') = sumWTo u es + (if k'.2 = u then 1 else 0) := by
  induction es with
  | nil =>
    simp only [bumpWeight, sumWTo]
    split_ifs <;> omega
  | cons e rest ih =>
    obtain ⟨ke, we⟩ := e
    simp only [bumpWeight]
    by_cases h : ke = k'
    · subst h
      rw [if_pos rfl]
      simp only [sumWTo]
      split_ifs <;> omega
    · rw [if_neg h]
      simp only [sumWTo, ih]
      split_ifs <;> omega

lemma sumWTo_append_one (u : Addr) (k' : Addr × Addr) (es : List ((Addr × Addr) × Nat)) :
    sumWTo u (es ++ [(k', 1)]) = sumWTo u es + (if k'.2 = u then 1 else 0) := by
  induction es with
  | nil => simp [sumWTo]
  | cons e rest ih =>
    simp only [List.cons_append, List.append_eq, sumWTo]
    rw [ih]
    omega

lemma inWeight_ingestEdge (g : DiGraph) (s r u : Addr) :
    inWeight (ingestEdge g s r) u = inWeight g u + (if r = u then 1 else 0) := by
  unfold ingestEdge inWeight
  by_cases h : hasEdge g s r
  · rw [if_pos h]
    exact sumWTo_bumpWeight u (s, r) g.edges
  · rw [if_neg h]
    exact sumWTo_append_one u (s, r) g.edges

/-! ## Lemmas about `stepReceiver` -/

lemma stepReceiver_self {s : Addr} {ts : ℚ} {tk : List Char} {st : PipelineState} {r : Addr}
    (h : r = s) : stepReceiver s ts tk st r = st := by
  unfold stepReceiver
  rw [if_pos h]

lemma stepReceiver_G {s : Addr} {ts : ℚ} {tk : List Char} {st : PipelineState} {r : Addr}
    (h : r ≠ s) : (stepReceiver s ts tk st r).G = ingestEdge st.G s r := by
  unfold stepReceiver
  rw [if_neg h]
  dsimp only
  cases hp : st.pending (r, s, tk) <;> rfl

lemma stepReceiver_rows_kept (s : Addr) (ts : ℚ) (tk : List Char) (st : PipelineState)
    (r : Addr) : (stepReceiver s ts tk st r).rows_kept = st.rows_kept := by
  unfold stepReceiver
  by_cases h : r = s
  · rw [if_pos h]
  · rw [if_neg h]
    dsimp only
    cases hp : st.pending (r, s, tk) <;> rfl

lemma stepReceiver_temporal (s : Addr) (ts : ℚ) (tk : List Char) (st : PipelineState)
    (r : Addr) : (stepReceiver s ts tk st r).temporal = st.temporal := by
  unfold stepReceiver
  by_cases h : r = s
  · rw [if_pos h]
  · rw [if_neg h]
    dsimp only
    cases hp : st.pending (r, s, tk) <;> rfl

lemma stepReceiver_in_degree {s : Addr} {ts : ℚ} {tk : List Char} {st : PipelineState}
    {r : Addr} (h : r ≠ s) (u : Addr) :
    ((stepReceiver s ts tk st r).stats u).in_degree_count
      = (st.stats u).in_degree_count + (if u = r then 1 else 0) := by
  unfold stepReceiver
  rw [if_neg h]
  dsimp only
  cases hp : st.pending (r, s, tk) with
  | nil =>
    simp only [updStat]
    split_ifs <;> simp_all
  | cons t0 rest =>
    simp only [updStat, ite_apply]
    split_ifs <;> simp_all

lemma stepReceiver_in_strength {s : Addr} {ts : ℚ} {tk : List Char} {st : PipelineState}
    {r : Addr} (h : r ≠ s) (u : Addr) :
    ((stepReceiver s ts tk st r).stats u).in_strength
      = (st.stats u).in_strength + (if u = r then 1 else 0) := by
  unfold stepReceiver
  rw [if_neg h]
  dsimp only
  cases hp : st.pending (r, s, tk) with
  | nil =>
    simp only [updStat]
    split_ifs <;> simp_all
  | cons t0 rest =>
    simp only [updStat, ite_apply]
    split_ifs <;> simp_all

/-! ## Claim C1: the in-weight invariant -/

/-- The invariant of claim C1, stated for an arbitrary pipeline state. -/
def InDegInv (st : PipelineState) : Prop :=
  ∀ u : Addr, inWeight st.G u = (st.stats u).in_degree_count
    ∧ (st.stats u).in_strength = (st.stats u).in_degree_count

lemma inDegInv_stepReceiver {st : PipelineState} (s : Addr) (ts : ℚ) (tk : List Char)
    (r : Addr) (hinv : InDegInv st) : InDegInv (stepReceiver s ts tk st r) := by
  by_cases h : r = s
  · rw [stepReceiver_self h]
    exact hinv
  · intro u
    rw [stepReceiver_G h, inWeight_ingestEdge, stepReceiver_in_degree h u,
      stepReceiver_in_strength h u, (hinv u).1, (hinv u).2]
    constructor
    · by_cases hu : u = r
      · subst hu
        simp
      · rw [if_neg hu, if_neg (fun he : r = u => hu he.symm)]
    · rfl

lemma inDegInv_fold {st : PipelineState} (s : Addr) (ts : ℚ) (tk : List Char)
    (receivers : List Addr) (hinv : InDegInv st) :
    InDegInv (receivers.foldl (stepReceiver s ts tk) st) := by
  induction receivers generalizing st with
  | nil => exact hinv
  | cons r rest ih =>
    rw [List.foldl_cons]
    exact ih (inDegInv_stepReceiver s ts tk r hinv)

lemma inDegInv_processMessage {st : PipelineState} (m : ValidatedMessage)
    (hinv : InDegInv st) : InDegInv (processMessage st m) := by
  unfold processMessage
  intro u
  have hst1 : InDegInv
      { st with temporal := st.temporal ++ [(m.sender, m.timestamp)],
                stats := updStat st.stats m.sender
                  (fun u => { u with timestamps := u.timestamps ++ [m.timestamp] }) } := by
    intro v
    simp only [updStat]
    split_ifs <;> exact hinv v
  exact inDegInv_fold m.sender m.timestamp _ m.receivers hst1 u

/-- Claim C1: after ingesting any sequence of validated messages, for
every node `u` the sum of the weights of all edges entering `u` equals
`UserStats[u].in_degree_count`, and `in_strength` equals
`in_degree_count` (both counters are updated together). -/
theorem C1_in_weight_equals_in_degree :
    ∀ (msgs : List ValidatedMessage) (u : Addr),
      inWeight (runIngest msgs).G u = ((runIngest msgs).stats u).in_degree_count
      ∧ ((runIngest msgs).stats u).in_strength = ((runIngest msgs).stats u).in_degree_count := by
  have hbase : InDegInv initState := fun u => ⟨rfl, rfl⟩
  have hfold : ∀ (msgs : List ValidatedMessage) (st : PipelineState), InDegInv st →
      InDegInv (msgs.foldl processMessage st) := by
    intro msgs
    induction msgs with
    | nil => exact fun st h => h
    | cons m rest ih =>
      intro st h
      rw [List.foldl_cons]
      exact ih _ (inDegInv_processMessage m h)
  exact fun msgs => hfold msgs initState hbase

/-! ## Claim C2: edge weights count receiver occurrences -/

lemma stepReceiver_edgeWeight {s : Addr} {ts : ℚ} {tk : List Char} {v : Addr}
    (st : PipelineState) (r : Addr) (hvs : v ≠ s) :
    edgeWeight ((stepReceiver s ts tk st r).G) s v
      = edgeWeight st.G s v + (if r = v then 1 else 0) := by
  by_cases h : r = s
  · rw [stepReceiver_self h, if_neg (fun he : r = v => hvs (h ▸ he).symm)]
    omega
  · rw [stepReceiver_G h, edgeWeight_ingestEdge]
    by_cases hv : r = v
    · rw [if_pos hv, if_pos (by rw [hv])]
    · rw [if_neg hv, if_neg (fun he => hv (congrArg Prod.snd he))]

lemma foldl_edgeWeight {s : Addr} {ts : ℚ} {tk : List Char} {v : Addr}
    (receivers : List Addr) (st : PipelineState) (hvs : v ≠ s) :
    edgeWeight ((receivers.foldl (stepReceiver s ts tk) st).G) s v
      = edgeWeight st.G s v + receivers.count v := by
  induction receivers generalizing st with
  | nil => rfl
  | cons r rest ih =>
    rw [List.foldl_cons, ih (stepReceiver s ts tk st r), stepReceiver_edgeWeight st r hvs,
      List.count_cons]
    have : (r == v) = decide (r = v) := by
      by_cases h : r = v
      · simp [h]
      · simp [h]
    rw [this]
    by_cases h : r = v
    · simp [h]
      omega
    · simp [h]

/-- The message with a duplicated receiver that refutes claim C2. -/
def mDupReceiver : ValidatedMessage := ⟨['a'], [['b'], ['b']], 0, [], []⟩

/-- Counterexample to claim C2 as stated: a single validated message whose
receiver list names `b` twice gives edge `a→b` weight 2, not 1 — one
increment per receiver slot, not per distinct message-instance. -/
theorem C2_counterexample_duplicate_receiver :
    edgeWeight (processMessage initState mDupReceiver).G ['a'] ['b'] = 2
    ∧ edgeWeight (processMessage initState mDupReceiver).G ['a'] ['b'] ≠ 1 := by
  constructor
  · decide
  · decide

/-- Claim C2 (amended): the weight of edge `u→v` grows, per processed
message sent by `u`, by the number of receiver slots naming `v`
(duplicates counted), not by 1 per distinct message-instance. -/
theorem C2_edge_weight_counts_receiver_slots (st : PipelineState) (m : ValidatedMessage)
    (v : Addr) (hvs : v ≠ m.sender) :
    edgeWeight (processMessage st m).G m.sender v
      = edgeWeight st.G m.sender v + m.receivers.count v := by
  unfold processMessage
  dsimp only
  rw [foldl_edgeWeight m.receivers _ hvs]

/-- Witness for the amended C2 at the duplicated-receiver message. -/
theorem C2_edge_weight_counts_receiver_slots_witness :
    (['b'] : Addr) ≠ mDupReceiver.sender
    ∧ edgeWeight (processMessage initState mDupReceiver).G mDupReceiver.sender ['b']
      = edgeWeight initState.G mDupReceiver.sender ['b'] + mDupReceiver.receivers.count ['b'] :=
  ⟨by decide, C2_edge_weight_counts_receiver_slots initState mDupReceiver ['b'] (by decide)⟩

/-! ## Claims C3 and C4: the reply matcher -/

lemma stepReceiver_pop {s : Addr} {ts : ℚ} {tk : List Char} {st : PipelineState} {r : Addr}
    {t0 : ℚ} {rest : List ℚ} (h : r ≠ s) (hq : st.pending (r, s, tk) = t0 :: rest) :
    ((stepReceiver s ts tk st r).stats s).response_times
      = (if RT_MIN_HOURS < (ts - t0) / 3600 ∧ (ts - t0) / 3600 < RT_MAX_HOURS
         then (st.stats s).response_times ++ [(ts - t0) / 3600]
         else (st.stats s).response_times)
    ∧ (stepReceiver s ts tk st r).pending (r, s, tk) = rest
    ∧ (stepReceiver s ts tk st r).pending (s, r, tk) = st.pending (s, r, tk) ++ [ts] := by
  have hsr : s ≠ r := fun he => h he.symm
  have hkey : ((r, s, tk) : PendKey) ≠ (s, r, tk) := by
    intro he
    exact h (congrArg Prod.fst he)
  unfold stepReceiver
  rw [if_neg h]
  dsimp only
  rw [hq]
  refine ⟨?_, ?_, ?_⟩
  · simp only [updStat, ite_apply]
    split_ifs <;> simp_all
  · simp [updPend, hkey]
  · simp [updPend, Ne.symm hkey]

lemma processMessage_single_pop (st : PipelineState) (s r : Addr) (ts t0 : ℚ)
    (rest : List ℚ) (subj body : List Char) (h : r ≠ s)
    (hq : st.pending (r, s, normalize_subject subj) = t0 :: rest) :
    ((processMessage st ⟨s, [r], ts, subj, body⟩).stats s).response_times
      = (if RT_MIN_HOURS < (ts - t0) / 3600 ∧ (ts - t0) / 3600 < RT_MAX_HOURS
         then (st.stats s).response_times ++ [(ts - t0) / 3600]
         else (st.stats s).response_times)
    ∧ (processMessage st ⟨s, [r], ts, subj, body⟩).pending (r, s, normalize_subject subj)
      = rest
    ∧ (processMessage st ⟨s, [r], ts, subj, body⟩).pending (s, r, normalize_subject subj)
      = st.pending (s, r, normalize_subject subj) ++ [ts] := by
  unfold processMessage
  dsimp only
  have htk : (if USE_SUBJECT_THREADING_FOR_RT = true then normalize_subject subj else [])
      = normalize_subject subj := rfl
  rw [htk]
  set st1 : PipelineState :=
    { st with temporal := st.temporal ++ [(s, ts)],
              stats := updStat st.stats s
                (fun u => { u with timestamps := u.timestamps ++ [ts] }) } with hst1
  have hq1 : st1.pending (r, s, normalize_subject subj) = t0 :: rest := hq
  have hresp : (st1.stats s).response_times = (st.stats s).response_times := by
    rw [hst1]
    simp [updStat]
  have hfwd : st1.pending (s, r, normalize_subject subj)
      = st.pending (s, r, normalize_subject subj) := rfl
  obtain ⟨h1, h2, h3⟩ := stepReceiver_pop h hq1
  rw [List.foldl_cons, List.foldl_nil]
  exact ⟨by rw [h1, hresp], h2, by rw [h3, hfwd]⟩

/-- Claim C4: when the reply matcher pops a pending timestamp `t0` for an
incoming message at time `ts`, the elapsed value in hours is appended to
the replying sender's `response_times` iff it lies strictly between 0.1
and 168; in every case the popped queue entry stays consumed (the
reversed queue loses its head and only the forward queue receives a
push). -/
theorem C4_response_time_bounds (st : PipelineState) (s r : Addr) (ts t0 : ℚ)
    (rest : List ℚ) (subj body : List Char) (h : r ≠ s)
    (hq : st.pending (r, s, normalize_subject subj) = t0 :: rest) :
    ((processMessage st ⟨s, [r], ts, subj, body⟩).stats s).response_times
      = (if RT_MIN_HOURS < (ts - t0) / 3600 ∧ (ts - t0) / 3600 < RT_MAX_HOURS
         then (st.stats s).response_times ++ [(ts - t0) / 3600]
         else (st.stats s).response_times)
    ∧ (processMessage st ⟨s, [r], ts, subj, body⟩).pending (r, s, normalize_subject subj)
      = rest
    ∧ (processMessage st ⟨s, [r], ts, subj, body⟩).pending (s, r, normalize_subject subj)
      = st.pending (s, r, normalize_subject subj) ++ [ts] :=
  processMessage_single_pop st s r ts t0 rest subj body h hq

/-- Witness for C4: a concrete state with one pending entry, popped by a
reply that falls inside the bounds. -/
theorem C4_response_time_bounds_witness :
    (((['b'] : Addr) ≠ ['a'])
      ∧ (updPend (fun _ => []) ((['b'], ['a'], []) : PendKey) [0]) (['b'], ['a'], []) = 0 :: [])
    ∧ ((processMessage { initState with pending := updPend (fun _ => []) (['b'], ['a'], []) [0] }
        ⟨['a'], [['b']], 3600, [], []⟩).stats ['a']).response_times
      = (if RT_MIN_HOURS < ((3600 : ℚ) - 0) / 3600 ∧ ((3600 : ℚ) - 0) / 3600 < RT_MAX_HOURS
         then (({ initState with pending := updPend (fun _ => []) (['b'], ['a'], []) [0] }
            : PipelineState).stats ['a']).response_times ++ [((3600 : ℚ) - 0) / 3600]
         else (({ initState with pending := updPend (fun _ => []) (['b'], ['a'], []) [0] }
            : PipelineState).stats ['a']).response_times) := by
  refine ⟨⟨by decide, by decide⟩, ?_⟩
  exact (C4_response_time_bounds
    { initState with pending := updPend (fun _ => []) (['b'], ['a'], []) [0] }
    ['a'] ['b'] 3600 0 [] [] [] (by decide) (by decide)).1

lemma stepReceiver_push {s : Addr} {ts : ℚ} {tk : List Char} {st : PipelineState} {r : Addr}
    (h : r ≠ s) (hq : st.pending (r, s, tk) = []) :
    (∀ u, ((stepReceiver s ts tk st r).stats u).response_times
      = (st.stats u).response_times)
    ∧ (stepReceiver s ts tk st r).pending
      = updPend st.pending (s, r, tk) (st.pending (s, r, tk) ++ [ts]) := by
  unfold stepReceiver
  rw [if_neg h]
  dsimp only
  rw [hq]
  refine ⟨fun u => ?_, rfl⟩
  simp only [updStat]
  split_ifs <;> simp_all

lemma processMessage_single_push (st : PipelineState) (s r : Addr) (ts : ℚ)
    (subj body : List Char) (h : r ≠ s)
    (hq : st.pending (r, s, normalize_subject subj) = []) :
    (∀ u, ((processMessage st ⟨s, [r], ts, subj, body⟩).stats u).response_times
      = (st.stats u).response_times)
    ∧ (processMessage st ⟨s, [r], ts, subj, body⟩).pending
      = updPend st.pending (s, r, normalize_subject subj)
          (st.pending (s, r, normalize_subject subj) ++ [ts]) := by
  unfold processMessage
  dsimp only
  have htk : (if USE_SUBJECT_THREADING_FOR_RT = true then normalize_subject subj else [])
      = normalize_subject subj := rfl
  rw [htk, List.foldl_cons, List.foldl_nil]
  set st1 : PipelineState :=
    { st with temporal := st.temporal ++ [(s, ts)],
              stats := updStat st.stats s
                (fun u => { u with timestamps := u.timestamps ++ [ts] }) } with hst1
  have hq1 : st1.pending (r, s, normalize_subject subj) = [] := hq
  obtain ⟨h1, h2⟩ := stepReceiver_push h hq1
  refine ⟨fun u => ?_, h2⟩
  rw [h1 u, hst1]
  simp [updStat]
  split_ifs <;> rfl

/-- Claim C3: the reply matcher consumes pending entries in FIFO order.
If `A` sends to `B` at `t1` and then at `t2` on the same thread key with
no intervening reply, and one message `B→A` then arrives on that thread
key, the recorded elapsed time is computed from `t1` (the oldest
outstanding timestamp), exactly one queue entry is consumed (the forward
queue still holds `t2`), and `t1` is no longer available to be matched
again. -/
theorem C3_fifo_oldest_matched_first (A B : Addr) (t1 t2 t3 : ℚ)
    (subj subj3 body1 body2 body3 : List Char) (hAB : A ≠ B) (h12 : t1 < t2)
    (hkey : normalize_subject subj3 = normalize_subject subj) :
    ((runIngest [⟨A, [B], t1, subj, body1⟩, ⟨A, [B], t2, subj, body2⟩,
        ⟨B, [A], t3, subj3, body3⟩]).stats B).response_times
      = (if RT_MIN_HOURS < (t3 - t1) / 3600 ∧ (t3 - t1) / 3600 < RT_MAX_HOURS
         then [(t3 - t1) / 3600] else [])
    ∧ (runIngest [⟨A, [B], t1, subj, body1⟩, ⟨A, [B], t2, subj, body2⟩,
        ⟨B, [A], t3, subj3, body3⟩]).pending (A, B, normalize_subject subj) = [t2]
    ∧ (runIngest [⟨A, [B], t1, subj, body1⟩, ⟨A, [B], t2, subj, body2⟩,
        ⟨B, [A], t3, subj3, body3⟩]).pending (B, A, normalize_subject subj) = [t3] := by
  have hBA : B ≠ A := Ne.symm hAB
  set k := normalize_subject subj with hk
  set m1 : ValidatedMessage := ⟨A, [B], t1, subj, body1⟩ with hm1
  set m2 : ValidatedMessage := ⟨A, [B], t2, subj, body2⟩ with hm2
  set m3 : ValidatedMessage := ⟨B, [A], t3, subj3, body3⟩ with hm3
  set st1 := processMessage initState m1 with hst1
  set st2 := processMessage st1 m2 with hst2
  set st3 := processMessage st2 m3 with hst3
  have hrun : runIngest [m1, m2, m3] = st3 := rfl
  rw [hrun]
  have hne1 : ((B, A, k) : PendKey) ≠ (A, B, k) := fun he => hBA (congrArg Prod.fst he)
  have hq1 : initState.pending (B, A, k) = [] := rfl
  obtain ⟨hr1, hp1⟩ := processMessage_single_push initState A B t1 subj body1 hBA hq1
  have hp1' : st1.pending = updPend initState.pending (A, B, k) [t1] := by
    rw [hst1, hm1, hp1, ← hk]
    rfl
  have hq2 : st1.pending (B, A, k) = [] := by
    rw [hp1']
    simp [updPend, hne1, initState]
  obtain ⟨hr2, hp2⟩ := processMessage_single_push st1 A B t2 subj body2 hBA hq2
  have hfwd1 : st1.pending (A, B, k) = [t1] := by
    rw [hp1']
    simp [updPend]
  have hp2' : st2.pending = updPend st1.pending (A, B, k) [t1, t2] := by
    rw [hst2, hm2, hp2, ← hk, hfwd1]
    rfl
  have hq3 : st2.pending (A, B, normalize_subject subj3) = t1 :: [t2] := by
    rw [hkey, hp2']
    simp [updPend]
  obtain ⟨hr3, hpop3, hpush3⟩ :=
    processMessage_single_pop st2 B A t3 t1 [t2] subj3 body3 hAB hq3
  rw [hkey] at hpop3 hpush3
  have hrB : (st2.stats B).response_times = [] := by
    rw [hst2, hm2]
    rw [hr2 B]
    rw [hst1, hm1, hr1 B]
    rfl
  refine ⟨?_, ?_, ?_⟩
  · rw [← hst3] at hr3
    rw [hr3, hrB]
    split_ifs <;> rfl
  · rw [← hst3] at hpop3
    exact hpop3
  · rw [← hst3] at hpush3
    rw [hpush3, hp2']
    simp [updPend, hne1, hq2]

/-- Witness for C3 at a concrete two-sends-then-reply exchange. -/
theorem C3_fifo_oldest_matched_first_witness :
    ((runIngest [⟨['a'], [['b']], 0, [], []⟩, ⟨['a'], [['b']], 3600, [], []⟩,
        ⟨['b'], [['a']], 7200, [], []⟩]).stats ['b']).response_times
      = (if RT_MIN_HOURS < ((7200 : ℚ) - 0) / 3600 ∧ ((7200 : ℚ) - 0) / 3600 < RT_MAX_HOURS
         then [((7200 : ℚ) - 0) / 3600] else [])
    ∧ (runIngest [⟨['a'], [['b']], 0, [], []⟩, ⟨['a'], [['b']], 3600, [], []⟩,
        ⟨['b'], [['a']], 7200, [], []⟩]).pending (['a'], ['b'], normalize_subject []) = [3600]
    ∧ (runIngest [⟨['a'], [['b']], 0, [], []⟩, ⟨['a'], [['b']], 3600, [], []⟩,
        ⟨['b'], [['a']], 7200, [], []⟩]).pending (['b'], ['a'], normalize_subject []) = [7200] :=
  C3_fifo_oldest_matched_first ['a'] ['b'] 0 3600 7200 [] [] [] [] []
    (by decide) (by norm_num) rfl

/-! ## Claim C5: fragmentation impact -/

lemma removeNodes_nil (g : DiGraph) : removeNodes g [] = g := by
  unfold removeNodes
  cases g with
  | mk ns es =>
    simp only [DiGraph.mk.injEq]
    constructor
    · exact List.filter_eq_self.mpr (fun a _ => by simp)
    · exact List.filter_eq_self.mpr (fun a _ => by simp)

lemma removeNodes_all_nodes (g : DiGraph) : (removeNodes g g.nodes).nodes = [] := by
  unfold removeNodes
  exact List.filter_eq_nil_iff.mpr (fun a ha => by simp [ha])

lemma mergeComps_ne_nil {comps : List (List Addr)} (h : comps ≠ []) (u v : Addr) :
    mergeComps comps u v ≠ [] := by
  unfold mergeComps
  cases hfu : comps.find? (fun c => c.contains u) with
  | none => exact h
  | some cu =>
    cases hfv : comps.find? (fun c => c.contains v) with
    | none => exact h
    | some cv =>
      dsimp only
      by_cases he : cu = cv
      · rw [if_pos he]
        exact h
      · rw [if_neg he]
        simp

lemma mergeComps_mem_ne_nil {comps : List (List Addr)} (h : ∀ c ∈ comps, c ≠ [])
    (u v : Addr) : ∀ c ∈ mergeComps comps u v, c ≠ [] := by
  unfold mergeComps
  cases hfu : comps.find? (fun c => c.contains u) with
  | none => exact h
  | some cu =>
    cases hfv : comps.find? (fun c => c.contains v) with
    | none => exact h
    | some cv =>
      dsimp only
      by_cases he : cu = cv
      · rw [if_pos he]
        exact h
      · rw [if_neg he]
        intro c hc
        rcases List.mem_append.mp hc with hmem | hmem
        · exact h c (List.mem_of_mem_filter hmem)
        · rw [List.mem_singleton.mp hmem]
          have hcu : cu ∈ comps := List.mem_of_find?_eq_some hfu
          intro habs
          exact h cu hcu (List.append_eq_nil.mp habs).1

lemma foldl_mergeComps_inv (edges : List ((Addr × Addr) × Nat)) :
    ∀ comps : List (List Addr), comps ≠ [] → (∀ c ∈ comps, c ≠ []) →
      (edges.foldl (fun comps e => mergeComps comps e.1.1 e.1.2) comps) ≠ []
      ∧ ∀ c ∈ edges.foldl (fun comps e => mergeComps comps e.1.1 e.1.2) comps, c ≠ [] := by
  induction edges with
  | nil => exact fun comps h1 h2 => ⟨h1, h2⟩
  | cons e rest ih =>
    intro comps h1 h2
    rw [List.foldl_cons]
    exact ih _ (mergeComps_ne_nil h1 _ _) (mergeComps_mem_ne_nil h2 _ _)

lemma maxWccSize_pos {g : DiGraph} (h : g.nodes ≠ []) : 1 ≤ maxWccSize g := by
  have hinit1 : g.nodes.map (fun n => [n]) ≠ [] := by
    simpa using h
  have hinit2 : ∀ c ∈ g.nodes.map (fun n => ([n] : List Addr)), c ≠ [] := by
    intro c hc
    obtain ⟨n, _, rfl⟩ := List.mem_map.mp hc
    simp
  obtain ⟨hne, hmem⟩ := foldl_mergeComps_inv g.edges _ hinit1 hinit2
  unfold maxWccSize
  rcases hcomps : components g with _ | ⟨c, rest⟩
  · exact absurd hcomps hne
  · have hc : c ≠ [] := by
      apply hmem
      have hmemc : c ∈ components g := by
        rw [hcomps]
        exact List.mem_cons_self c rest
      exact hmemc
    calc (1 : Nat) ≤ c.length := List.length_pos.mpr hc
      _ ≤ max c.length (rest.foldr (fun c acc => max c.length acc) 0) := le_max_left _ _
      _ = (c :: rest).foldr (fun c acc => max c.length acc) 0 := rfl

/-- The star graph `a→b, a→c` used to refute the "no edges after removal
means new-LCC 0" conjunct of claim C5. -/
def cexGraph : DiGraph := ingestEdge (ingestEdge emptyGraph ['a'] ['b']) ['a'] ['c']

/-- Counterexample to claim C5 as stated: removing `a` from the graph
`a→b, a→c` leaves two isolated nodes and no edges, yet the code's
new-LCC term is 1 (a singleton component), not 0, so the impact is
66.67, not 100. -/
theorem C5_counterexample_isolated_nodes :
    (removeNodes cexGraph [['a']]).edges = []
    ∧ (removeNodes cexGraph [['a']]).nodes ≠ []
    ∧ newLccOf cexGraph [['a']] = 1
    ∧ compute_fragmentation_impact cexGraph [['a']] = 6667 / 100
    ∧ compute_fragmentation_impact cexGraph [['a']] ≠ 100 := by
  have hmax : maxWccSize cexGraph = 3 := by decide
  have hnew : newLccOf cexGraph [['a']] = 1 := by decide
  have hfrag : compute_fragmentation_impact cexGraph [['a']] = 6667 / 100 := by
    unfold compute_fragmentation_impact
    rw [if_neg (by decide)]
    dsimp only
    rw [hmax, hnew, if_pos (by norm_num)]
    have hval : ((3 : ℚ) - (1 : Nat)) / (3 : Nat) * 100 = 200 / 3 := by
      norm_num
    rw [show ((3 : Nat) : ℚ) = 3 from by norm_num] at hval ⊢
    rw [hval]
    unfold round2
    rw [show (200 / 3 : ℚ) * 100 = 20000 / 3 from by ring, round_eq]
    have hfl : (⌊(20000 / 3 : ℚ) + 1 / 2⌋ : ℤ) = 6667 := by
      rw [Int.floor_eq_iff]
      · norm_num
    rw [hfl]
    norm_num
  refine ⟨by decide, by decide, hnew, hfrag, ?_⟩
  rw [hfrag]
  norm_num

/-- Claim C5 (amended): a graph with zero nodes gives impact 0 for any
member list; removing the empty member set gives impact 0; removing all
nodes of a graph with at least one node gives new-LCC 0 and impact 100;
and the new-LCC term of the formula is 0 exactly when the graph has no
nodes left after removal — a nonempty graph with no remaining edges
contributes a new-LCC of at least 1 (its largest singleton component),
not 0. -/
theorem C5_fragmentation_impact :
    (∀ (g : DiGraph) (members : List Addr), g.nodes = [] →
      compute_fragmentation_impact g members = 0)
    ∧ (∀ g : DiGraph, compute_fragmentation_impact g [] = 0)
    ∧ (∀ g : DiGraph, g.nodes ≠ [] →
      newLccOf g g.nodes = 0 ∧ compute_fragmentation_impact g g.nodes = 100)
    ∧ (∀ (g : DiGraph) (members : List Addr), (removeNodes g members).nodes = [] →
      newLccOf g members = 0)
    ∧ (∀ (g : DiGraph) (members : List Addr), (removeNodes g members).nodes ≠ [] →
      1 ≤ newLccOf g members) := by
  have hnewlcc_zero : ∀ (g : DiGraph) (members : List Addr),
      (removeNodes g members).nodes = [] → newLccOf g members = 0 := by
    intro g members hrm
    unfold newLccOf
    dsimp only
    rw [hrm]
    simp
  refine ⟨?_, ?_, ?_, hnewlcc_zero, ?_⟩
  · intro g members hg
    unfold compute_fragmentation_impact
    rw [if_pos (by rw [hg]; rfl)]
  · intro g
    by_cases hg : g.nodes = []
    · unfold compute_fragmentation_impact
      rw [if_pos (by rw [hg]; rfl)]
    · unfold compute_fragmentation_impact
      rw [if_neg (by simpa [List.length_eq_zero] using hg)]
      have hnew : newLccOf g [] = maxWccSize g := by
        unfold newLccOf
        rw [removeNodes_nil]
        rw [if_pos (by rwa [List.length_pos])]
      dsimp only
      rw [hnew]
      split_ifs with hpos
      · rw [sub_self, zero_div, zero_mul]
        simp [round2]
      · rfl
  · intro g hg
    have hz : newLccOf g g.nodes = 0 := hnewlcc_zero g g.nodes (removeNodes_all_nodes g)
    refine ⟨hz, ?_⟩
    unfold compute_fragmentation_impact
    rw [if_neg (by simpa [List.length_eq_zero] using hg), hz]
    have hpos : 0 < maxWccSize g := maxWccSize_pos hg
    rw [if_pos hpos]
    have hcast : (maxWccSize g : ℚ) ≠ 0 := by
      exact_mod_cast Nat.pos_iff_ne_zero.mp hpos
    rw [Nat.cast_zero, sub_zero, div_self hcast, one_mul]
    unfold round2
    rw [show ((100 : ℚ) * 100) = 10000 from by norm_num, round_eq]
    have hfl : (⌊(10000 : ℚ) + 1 / 2⌋ : ℤ) = 10000 := by
      rw [Int.floor_eq_iff]
      · norm_num
    rw [hfl]
    norm_num
  · intro g members hrm
    unfold newLccOf
    rw [if_pos (by rwa [List.length_pos])]
    exact maxWccSize_pos hrm

/-- Witness for the amended C5 at concrete graphs. -/
theorem C5_fragmentation_impact_witness :
    compute_fragmentation_impact emptyGraph [['z']] = 0
    ∧ compute_fragmentation_impact cexGraph [] = 0
    ∧ compute_fragmentation_impact cexGraph cexGraph.nodes = 100
    ∧ newLccOf cexGraph cexGraph.nodes = 0
    ∧ 1 ≤ newLccOf cexGraph [['a']] :=
  ⟨C5_fragmentation_impact.1 emptyGraph [['z']] rfl,
   C5_fragmentation_impact.2.1 cexGraph,
   (C5_fragmentation_impact.2.2.1 cexGraph (by decide)).2,
   C5_fragmentation_impact.2.2.2.1 cexGraph cexGraph.nodes (by decide),
   C5_fragmentation_impact.2.2.2.2 cexGraph [['a']] (by decide)⟩

/-! ## Claim C9: validation failures are skipped, counted, and never abort -/

lemma foldl_stepReceiver_rows_kept (s : Addr) (ts : ℚ) (tk : List Char)
    (receivers : List Addr) (st : PipelineState) :
    (receivers.foldl (stepReceiver s ts tk) st).rows_kept = st.rows_kept := by
  induction receivers generalizing st with
  | nil => rfl
  | cons r rest ih =>
    rw [List.foldl_cons, ih, stepReceiver_rows_kept]

lemma processMessage_rows_kept (st : PipelineState) (m : ValidatedMessage) :
    (processMessage st m).rows_kept = st.rows_kept + 1 := by
  unfold processMessage
  dsimp only
  rw [foldl_stepReceiver_rows_kept]

lemma pipelineFold_rows_kept (records : List RawRecord) :
    ∀ st : PipelineState, (pipelineFold st records).rows_kept
      = st.rows_kept + records.countP (fun x => (validate x).isSome) := by
  induction records with
  | nil => intro st; rfl
  | cons r rest ih =>
    intro st
    unfold pipelineFold at ih ⊢
    rw [List.foldl_cons, List.countP_cons]
    cases hv : validate r with
    | none =>
      rw [ih st]
      simp [hv]
    | some m =>
      rw [ih (processMessage st m), processMessage_rows_kept]
      simp [hv]
      omega

/-- Claim C9: a record that fails validation is silently discarded —
the pipeline state is untouched and the remaining records are still
processed — while `rows_kept` counts exactly the accepted records, so
the number of discarded records is `length − rows_kept`, the count of
records failing validation.  No failure aborts the fold. -/
theorem C9_validation_failures_are_skipped_and_counted :
    (∀ (st : PipelineState) (r : RawRecord) (rest : List RawRecord), validate r = none →
      pipelineFold st (r :: rest) = pipelineFold st rest)
    ∧ (∀ records : List RawRecord,
        (pipelineFold initState records).rows_kept
          = records.countP (fun x => (validate x).isSome))
    ∧ (∀ records : List RawRecord,
        records.length - (pipelineFold initState records).rows_kept
          = records.countP (fun x => (validate x).isNone)) := by
  refine ⟨?_, ?_, ?_⟩
  · intro st r rest hv
    unfold pipelineFold
    rw [List.foldl_cons, hv]
  · intro records
    rw [pipelineFold_rows_kept, show initState.rows_kept = 0 from rfl]
    omega
  · intro records
    rw [pipelineFold_rows_kept]
    have hlen := List.length_eq_countP_add_countP (fun x => (validate x).isSome) records
    have hcongr : records.countP (fun x => ¬ ((validate x).isSome = true))
        = records.countP (fun x => (validate x).isNone) := by
      apply List.countP_congr
      intro x _
      cases validate x <;> simp
    rw [show initState.rows_kept = 0 from rfl]
    omega

/-- A record whose body is too short, used as a concrete failing record. -/
def badRecord : RawRecord :=
  ⟨['h', 'i'], ['x'], some ['a', '@', 'e', 'n', 'r', 'o', 'n', '.', 'c', 'o', 'm'],
   some [['b', '@', 'e', 'n', 'r', 'o', 'n', '.', 'c', 'o', 'm']], some (some 0)⟩

/-- Witness for C9: the short-body record is rejected and skipping it
leaves the fold unchanged. -/
theorem C9_validation_failures_are_skipped_and_counted_witness :
    validate badRecord = none
    ∧ pipelineFold initState [badRecord] = pipelineFold initState [] :=
  ⟨by decide,
   C9_validation_failures_are_skipped_and_counted.1 initState badRecord [] (by decide)⟩

/-! ## Claim C10: self-addressed messages touch only the send log -/

lemma foldl_stepReceiver_all_self {s : Addr} {ts : ℚ} {tk : List Char}
    {receivers : List Addr} (h : ∀ r ∈ receivers, r = s) (st : PipelineState) :
    receivers.foldl (stepReceiver s ts tk) st = st := by
  induction receivers with
  | nil => rfl
  | cons r rest ih =>
    rw [List.foldl_cons, stepReceiver_self (h r (List.mem_cons_self r rest))]
    exact ih (fun x hx => h x (List.mem_cons_of_mem r hx))

lemma mem_individual_table_user {g : DiGraph} {stats : Addr → UserStat}
    {dmap : Addr → Option Nat} {row : IndivRow}
    (h : row ∈ build_individual_table g stats dmap) : row.user ∈ g.nodes := by
  unfold build_individual_table at h
  rw [List.mem_map] at h
  obtain ⟨u, hu, rfl⟩ := h
  exact hu

/-- Claim C10: for a validated message all of whose receivers equal the
sender, ingestion appends the timestamp to the sender's `timestamps` and
counts the row as kept, but leaves the graph, every
in-degree/in-strength/out-strength counter, every response-time list and
every pending queue unchanged; consequently a sender absent from the
graph before such a message is still absent, and never appears as a row
of the individual table, which iterates over graph nodes only. -/
theorem C10_self_addressed_messages_only_log (st : PipelineState) (m : ValidatedMessage)
    (h : ∀ r ∈ m.receivers, r = m.sender) :
    (processMessage st m).G = st.G
    ∧ (processMessage st m).pending = st.pending
    ∧ (∀ u : Addr,
        ((processMessage st m).stats u).in_degree_count = (st.stats u).in_degree_count
        ∧ ((processMessage st m).stats u).in_strength = (st.stats u).in_strength
        ∧ ((processMessage st m).stats u).out_strength = (st.stats u).out_strength
        ∧ ((processMessage st m).stats u).response_times = (st.stats u).response_times)
    ∧ ((processMessage st m).stats m.sender).timestamps
        = (st.stats m.sender).timestamps ++ [m.timestamp]
    ∧ (processMessage st m).rows_kept = st.rows_kept + 1
    ∧ (∀ (stats : Addr → UserStat) (dmap : Addr → Option Nat), m.sender ∉ st.G.nodes →
        ∀ row ∈ build_individual_table (processMessage st m).G stats dmap,
          row.user ≠ m.sender) := by
  have hfold : processMessage st m
      = { st with temporal := st.temporal ++ [(m.sender, m.timestamp)],
                  stats := updStat st.stats m.sender
                    (fun u => { u with timestamps := u.timestamps ++ [m.timestamp] }),
                  rows_kept := st.rows_kept + 1 } := by
    unfold processMessage
    dsimp only
    rw [foldl_stepReceiver_all_self h]
  rw [hfold]
  refine ⟨rfl, rfl, fun u => ?_, ?_, rfl, ?_⟩
  · simp only [updStat]
    split_ifs <;> simp_all
  · simp [updStat]
  · intro stats dmap habs row hrow
    intro heq
    exact habs (heq ▸ mem_individual_table_user hrow)

/-- The concrete self-addressed message used as the C10 witness. -/
def mSelf : ValidatedMessage := ⟨['a'], [['a'], ['a']], 5, [], []⟩

/-- Witness for C10: the self-addressed message leaves graph and queues
untouched and only logs the timestamp. -/
theorem C10_self_addressed_messages_only_log_witness :
    (processMessage initState mSelf).G = initState.G
    ∧ ((processMessage initState mSelf).stats ['a']).timestamps
      = ((initState : PipelineState).stats ['a']).timestamps ++ [5]
    ∧ (processMessage initState mSelf).rows_kept = initState.rows_kept + 1 := by
  obtain ⟨h1, _, _, h4, h5, _⟩ :=
    C10_self_addressed_messages_only_log initState mSelf (by decide)
  exact ⟨h1, h4, h5⟩

end Enron
